import Mathlib

/-!
# Verification of the ape-solidity import-resolution and version-selection engine

A shallow embedding, in Lean 4, of the core of the `ape-solidity` compiler
plugin (files `ape_solidity/_utils.py` and `ape_solidity/compiler.py`):

* pragma extraction and constraint parsing (`get_pragma_spec_from_str`),
* compiler-version selection (`select_version`, `_get_best_version`),
* import-line extraction (`get_import_lines`),
* import-string resolution (`_import_str_to_source_id`),
* the recursive import graph (`_get_imports`),
* the version map with exact-pin propagation and consolidation
  (`get_version_map_from_imports`),
* input validation (`_validate_can_compile`, `verify_contract_filepaths`).

Modelling conventions:

* Filesystem paths are absolute and represented as segment lists
  (`List String`); source IDs are project-root-relative `/`-joined strings,
  as in the Python code.
* Python exceptions are modelled with `Option`/`Except`: a raised exception
  is `none`/`.error`.
* Python `set`s and `dict`s are modelled as lists: `dict`s as ordered
  association lists with insertion-order semantics (updating an existing
  key keeps its position), `set`s as duplicate-free lists in insertion
  order (Python set iteration order is unspecified; the model fixes it).
* `packaging` versions are release-segment lists plus an optional local
  ("+commit.…") part; pre/post/dev release segments never occur in solc
  versions and are not modelled.
* Calls into the external `solcx` toolchain (`installed_versions`,
  `available_versions`, `install_solc`, and `add_commit_hash`, which runs
  the installed binary to read its commit hash) are modelled by an explicit
  environment `SolcEnv` threaded through the functions.
-/

namespace ApeSolidity

/-! ## Character-list and string utilities (Python string primitives) -/

/-- Ordering on characters by code point (Python compares strings by code point). -/
def charCmp (a b : Char) : Ordering := compare a.val b.val

/-- Lexicographic ordering on char lists, i.e. Python string comparison. -/
def charsCmp : List Char → List Char → Ordering
  | [], [] => .eq
  | [], _ :: _ => .lt
  | _ :: _, [] => .gt
  | a :: as, b :: bs =>
    match charCmp a b with
    | .eq => charsCmp as bs
    | o => o

/-- Python `s1 < s2` on strings. -/
def strLt (a b : String) : Bool := charsCmp a.data b.data = .lt

/-- Python `s1 <= s2` on strings; used for `sorted(...)` of string keys. -/
def strLe (a b : String) : Bool := charsCmp a.data b.data ≠ .gt

/-- Substring containment on char lists. -/
def charsContains (pat : List Char) : List Char → Bool
  | [] => pat.isEmpty
  | c :: cs => pat.isPrefixOf (c :: cs) || charsContains pat cs

/-- Python `needle in haystack` on strings (substring containment). -/
def strContains (hay pat : String) : Bool := charsContains pat.data hay.data

/-- Python `str.replace(pat, repl)` on char lists: replaces every
(non-overlapping, leftmost-first) occurrence. An empty pattern matches at
every position, as in Python. The fuel argument (one unit per consumed
character plus one) only makes the recursion structural; the wrapper
passes enough. -/
def replaceAllCharsGo (pat repl : List Char) : Nat → List Char → List Char
  | _, [] => if pat.isEmpty then repl else []
  | 0, s => s
  | fuel + 1, c :: cs =>
    if !pat.isEmpty && pat.isPrefixOf (c :: cs) then
      repl ++ replaceAllCharsGo pat repl fuel ((c :: cs).drop pat.length)
    else if pat.isEmpty then
      repl ++ c :: replaceAllCharsGo pat repl fuel cs
    else
      c :: replaceAllCharsGo pat repl fuel cs

/-- Python `str.replace` on strings. -/
def strReplace (s pat repl : String) : String :=
  ⟨replaceAllCharsGo pat.data repl.data (s.data.length + 1) s.data⟩

/-- Python `s.startswith(pre)`. -/
def strStartsWith (s pre : String) : Bool := pre.data.isPrefixOf s.data

/-- Python `str.isspace` for one character (ASCII whitespace; the model covers
the whitespace characters Solidity sources actually contain). -/
def isPySpace (c : Char) : Bool := c.isWhitespace

/-- Split a char list on a (non-empty) separator, Python
`str.split(sep)` / `String.splitOn` semantics: empty pieces are kept.
The fuel (one unit per consumed character plus one) only makes the
recursion structural. -/
def splitSepGo (sep : List Char) : Nat → List Char → List Char → List (List Char)
  | _, [], acc => [acc.reverse]
  | 0, s, acc => [acc.reverse ++ s]
  | fuel + 1, c :: cs, acc =>
    if sep.isPrefixOf (c :: cs) then
      acc.reverse :: splitSepGo sep fuel ((c :: cs).drop sep.length) []
    else
      splitSepGo sep fuel cs (c :: acc)

/-- Python `s.split(sep)` for a non-empty separator (the whole string for an
empty one, as `String.splitOn`; no caller passes one). -/
def strSplitOn (s sep : String) : List String :=
  if sep.isEmpty then [s]
  else (splitSepGo sep.data (s.data.length + 1) s.data []).map fun l => (⟨l⟩ : String)

/-- Python `str.split()` with no argument: split on whitespace runs,
dropping empty pieces. -/
def pySplitWs (s : String) : List String :=
  ((s.data.splitOnP isPySpace).map fun l => (⟨l⟩ : String)).filter (· ≠ "")

/-- Python `str.splitlines()` (for `\n`-separated text): like splitting on
`\n` but without a trailing empty piece. -/
def pySplitlines (s : String) : List String :=
  if s = "" then []
  else
    let parts := strSplitOn s "\n"
    if parts.getLast? = some "" then parts.dropLast else parts

/-- Python `str.strip()`. -/
def pyStrip (s : String) : String :=
  ⟨((s.data.dropWhile isPySpace).reverse.dropWhile isPySpace).reverse⟩

/-- Python `int(s)` on a digit string (`String.toNat?`). -/
def strToNat (s : String) : Option Nat :=
  if s.data ≠ [] && s.data.all Char.isDigit then
    some (s.data.foldl (fun n c => n * 10 + (c.toNat - '0'.toNat)) 0)
  else none

/-- Python `sorted(strings)` (insertion sort; keys are distinct wherever the
code sorts, so stability is irrelevant). -/
def sortStrings (l : List String) : List String := l.insertionSort (strLe · ·)

/-! ## Ordered association lists (Python `dict`) and insertion-order sets -/

/-- Python `dict` update `d[k] = v`: an existing key keeps its position, a
new key is appended. -/
def dictInsert {α β : Type} [DecidableEq α] (d : List (α × β)) (k : α) (v : β) :
    List (α × β) :=
  if d.any fun e => e.1 = k then
    d.map fun e => if e.1 = k then (k, v) else e
  else
    d ++ [(k, v)]

/-- Python `d.get(k)` / `d[k]`. -/
def dictGet {α β : Type} [DecidableEq α] (d : List (α × β)) (k : α) : Option β :=
  (d.find? fun e => e.1 = k).map (·.2)

/-- Python `k in d`. -/
def dictHasKey {α β : Type} [DecidableEq α] (d : List (α × β)) (k : α) : Bool :=
  d.any fun e => e.1 = k

/-- Python `{**d1, **d2}`: entries of `d2` override/append into `d1`. -/
def dictMerge {α β : Type} [DecidableEq α] (d1 d2 : List (α × β)) : List (α × β) :=
  d2.foldl (fun acc e => dictInsert acc e.1 e.2) d1

/-- Python `set.add` on an insertion-ordered duplicate-free list. -/
def setAdd {α : Type} [DecidableEq α] (s : List α) (x : α) : List α :=
  if x ∈ s then s else s ++ [x]

/-- Python `set.remove` / discarding one element. -/
def setRemove {α : Type} [DecidableEq α] (s : List α) (x : α) : List α :=
  s.filter (· ≠ x)

/-- Python `set(xs)` built by iterating a list (insertion order retained). -/
def setOfList {α : Type} [DecidableEq α] (xs : List α) : List α :=
  xs.foldl setAdd []

/-! ## Versions (`packaging.version.Version`, release-only plus local part) -/

/-- A `packaging` version as used for solc: release segments (e.g.
`[0, 8, 12]`) and an optional local part (the `+commit.…` qualifier).
Pre/post/dev segments never occur in solc versions and are not modelled. -/
structure PVersion where
  release : List Nat
  commit : Option String := none
deriving DecidableEq, Repr

/-- Zero-pad a release list to length `n` (packaging pads releases when
comparing, so `0.8` equals `0.8.0`). -/
def padRelease (n : Nat) (xs : List Nat) : List Nat :=
  xs ++ List.replicate (n - xs.length) 0

/-- `packaging` comparison of release tuples: lexicographic with the shorter
tuple zero-padded (so `0.8` equals `0.8.0`), written as a recursion that
treats a missing tail as zeros. -/
def releaseCmp : List Nat → List Nat → Ordering
  | [], [] => .eq
  | [], b :: bs => if (b :: bs).all (· == 0) then .eq else .lt
  | a :: as, [] => if (a :: as).all (· == 0) then .eq else .gt
  | a :: as, b :: bs =>
    match compare a b with
    | .eq => releaseCmp as bs
    | o => o

/-- `packaging` version ordering: release first; on ties a version with a
local part sorts above one without (local parts themselves compared as
strings — solc commit hashes, where it never matters). -/
def pvCmp (a b : PVersion) : Ordering :=
  match releaseCmp a.release b.release with
  | .eq =>
    match a.commit, b.commit with
    | none, none => .eq
    | none, some _ => .lt
    | some _, none => .gt
    | some x, some y => charsCmp x.data y.data
  | o => o

def pvLt (a b : PVersion) : Bool := pvCmp a b = .lt
def pvLe (a b : PVersion) : Bool := pvCmp a b ≠ .gt

/-- Python `max(versions)` (`_try_max`): first maximal element, `None` on an
empty list. -/
def pyMaxVersion (xs : List PVersion) : Option PVersion :=
  xs.foldl
    (fun best x =>
      match best with
      | none => some x
      | some b => if pvCmp x b = .gt then some x else some b)
    none

/-- `strip_commit_hash`: drop the local part (`str(version).split('+')[0]`). -/
def stripCommitHash (v : PVersion) : PVersion := { v with commit := none }

/-! ## Specifiers (`packaging.specifiers`) -/

/-- A `packaging` specifier operator. `~=` is `compatible`; `===` is
`arbitrary` (string equality). -/
inductive SpecOp
  | eq | ne | le | ge | lt | gt | compatible | arbitrary
deriving DecidableEq, Repr

/-- One `packaging.specifiers.Specifier`: an operator, the literal version
text after the operator (kept for `str(...)`, which the pin check reads),
the parsed release segments, and whether the text ended in a `.*`
wildcard. -/
structure Specifier where
  op : SpecOp
  verStr : String
  release : List Nat
  wildcard : Bool
deriving DecidableEq, Repr

/-- A `SpecifierSet` is a set of specifiers; modelled as a list (packaging
stores a frozenset; this code only ever asks "all specifiers hold" and
takes the sorted string form, both order-insensitive... the model keeps
parse order). -/
abbrev SpecSet := List Specifier

def specOpStr : SpecOp → String
  | .eq => "=="
  | .ne => "!="
  | .le => "<="
  | .ge => ">="
  | .lt => "<"
  | .gt => ">"
  | .compatible => "~="
  | .arbitrary => "==="

/-- `str(Specifier)`: the operator followed by the literal version text. -/
def specStr (s : Specifier) : String := specOpStr s.op ++ s.verStr

/-- `str(SpecifierSet)`: comma-join of the sorted specifier strings. -/
def specSetStr (ss : SpecSet) : String :=
  String.intercalate "," (sortStrings (ss.map specStr))

/-- Does a (release-only) candidate version satisfy `== v` semantics?
With a wildcard the candidate is compared on the wildcard's segments only
(both sides padded first, as packaging does). -/
def specEqHolds (specRel : List Nat) (wildcard : Bool) (cand : List Nat) : Bool :=
  if wildcard then
    let n := max specRel.length cand.length
    (padRelease n cand).take specRel.length = specRel
  else
    releaseCmp cand specRel = .eq

/-- `version in specifier` for a release-only candidate (the pre-release
special cases of `packaging` do not apply to final versions). -/
def specContains (s : Specifier) (v : PVersion) : Bool :=
  match s.op with
  | .eq => specEqHolds s.release s.wildcard v.release
  | .ne => !specEqHolds s.release s.wildcard v.release
  | .le => releaseCmp v.release s.release ≠ .gt
  | .ge => releaseCmp v.release s.release ≠ .lt
  | .lt => releaseCmp v.release s.release = .lt
  | .gt => releaseCmp v.release s.release = .gt
  | .compatible =>
    -- `~= X.Y.Z` is `>= X.Y.Z` and `== X.Y.*`.
    (releaseCmp v.release s.release ≠ .lt) &&
      specEqHolds s.release.dropLast true v.release
  | .arbitrary => v.release = s.release && !s.wildcard

/-- `version in specifier_set`: all member specifiers hold. -/
def specSetContains (ss : SpecSet) (v : PVersion) : Bool :=
  ss.all fun s => specContains s v

/-! ## Parsing specifiers (`packaging.specifiers.Specifier/SpecifierSet`) -/

/-- Parse a version text `[v]N(.N)*[.*]` into release segments plus a
wildcard flag. (Solc pragma versions are plain numeric; epochs and
pre/post/dev/local parts are not modelled.) -/
def parseVersionText (s : String) : Option (List Nat × Bool) :=
  let body := match s.data with
    | 'v' :: rest => (⟨rest⟩ : String)
    | _ => s
  let segs := strSplitOn body "."
  match segs.getLast? with
  | none => none
  | some lastSeg =>
    if lastSeg = "*" && segs.length ≥ 2 then
      (segs.dropLast.mapM strToNat).map fun rel => (rel, true)
    else
      (segs.mapM strToNat).map fun rel => (rel, false)

/-- `packaging.specifiers.Specifier(text)`: operator prefix (longest first)
followed by a version; wildcards only with `==`/`!=`; `~=` needs at least
two release segments and no wildcard. `None` models `InvalidSpecifier`. -/
def parseSpecifier (s : String) : Option Specifier :=
  let t := pyStrip s
  let opTable : List (String × SpecOp) :=
    [("===", .arbitrary), ("~=", .compatible), ("==", .eq), ("!=", .ne),
     ("<=", .le), (">=", .ge), ("<", .lt), (">", .gt)]
  match opTable.find? fun e => e.1.data.isPrefixOf t.data with
  | none => none
  | some (opStr, op) =>
    let verStr : String := ⟨t.data.drop opStr.data.length⟩
    match parseVersionText verStr with
    | none => none
    | some (rel, wild) =>
      match op with
      | .eq | .ne => some ⟨op, verStr, rel, wild⟩
      | .compatible =>
        if wild || rel.length < 2 then none else some ⟨op, verStr, rel, false⟩
      | .arbitrary => if wild then none else some ⟨op, verStr, rel, false⟩
      | _ => if wild then none else some ⟨op, verStr, rel, false⟩

/-- `packaging.specifiers.SpecifierSet(text)`: split on commas, strip,
drop empties, parse each piece; any bad piece raises (`none`). -/
def parseSpecifierSet (s : String) : Option SpecSet :=
  (((strSplitOn s ",").map pyStrip).filter (· ≠ "")).mapM parseSpecifier

/-! ## Pragma extraction (`_utils.get_pragma_spec_from_str`) -/

/-- The tail of the regex `\s*pragma\s*solidity\s*([^;\n]*)` applied at one
position: returns the captured group. -/
def matchPragmaAt (cs : List Char) : Option String :=
  let cs1 := cs.dropWhile isPySpace
  if "pragma".data.isPrefixOf cs1 then
    let cs2 := (cs1.drop 6).dropWhile isPySpace
    if "solidity".data.isPrefixOf cs2 then
      let cs3 := (cs2.drop 8).dropWhile isPySpace
      some ⟨cs3.takeWhile fun c => c ≠ ';' && c ≠ '\n'⟩
    else none
  else none

/-- Leftmost-match scan for `(?:\n|^)\s*pragma\s*solidity\s*([^;\n]*)` at
positions after the start: a match there must begin with a newline. -/
def pragmaScan : List Char → Option String
  | [] => none
  | c :: rest =>
    if c = '\n' then
      match matchPragmaAt rest with
      | some g => some g
      | none => pragmaScan rest
    else pragmaScan rest

/-- First match of `(?:\n|^)\s*pragma\s*solidity\s*([^;\n]*)` in a source
string (the captured group). At position 0 the `^` branch applies; the
leading-`\n` branch coincides with it because `\s*` absorbs the newline. -/
def findPragma (s : String) : Option String :=
  match matchPragmaAt s.data with
  | some g => some g
  | none => pragmaScan s.data

/-- `_to_spec` from `get_pragma_spec_from_str`: `^`→`~=`, bare numeric
becomes `==`-pinned, a single leading `=` becomes `==`. -/
def toSpec (item : String) : String :=
  let item := strReplace item "^" "~="
  match item.data with
  | [] => item
  | c :: rest =>
    if c.isDigit then "==" ++ item
    else if rest.length ≥ 1 && c = '=' && rest.headD ' ' ≠ '=' then "=" ++ item
    else item

/-- The builder loop of `get_pragma_spec_from_str`: glue operator-only
pieces (like `>=`) onto the following numeric piece; a trailing glue with
no numeric piece after it is discarded (the Python loop simply ends). -/
def fixPragmaParts : List String → String → List String
  | [], _ => []
  | p :: rest, builder =>
    if !(p.data.any Char.isDigit) then fixPragmaParts rest (builder ++ p)
    else if builder ≠ "" then toSpec (builder ++ p) :: fixPragmaParts rest ""
    else toSpec p :: fixPragmaParts rest ""

/-- `get_pragma_spec_from_str`: find the first pragma-solidity declaration,
normalize its expression, and parse it as a `SpecifierSet`; returns `None`
both when no pragma is present and when parsing fails (the `ValueError`
is caught and logged). -/
def getPragmaSpecFromStr (s : String) : Option SpecSet :=
  match findPragma s with
  | none => none
  | some captured =>
    parseSpecifierSet
      (String.intercalate "," (fixPragmaParts (pySplitWs captured) ""))

/-! ## Version selection (`_utils.select_version`) -/

/-- `select_version`: the maximum option satisfying the spec
(`sorted(spec.filter(options), reverse=True)[0]`), `None` if no option
satisfies it. -/
def selectVersion (ss : SpecSet) (options : List PVersion) : Option PVersion :=
  pyMaxVersion (options.filter fun v => specSetContains ss v)

/-! ## Filesystem and project model -/

/-- An absolute filesystem path, as segments from the root. -/
abbrev AbsPath := List String

/-- The filesystem: a finite map from absolute paths to file contents. -/
abbrev Filesystem := List (AbsPath × String)

def isFile (fs : Filesystem) (p : AbsPath) : Bool := fs.any fun e => e.1 = p

def readFile (fs : Filesystem) (p : AbsPath) : Option String := dictGet fs p

/-- POSIX `Path(base) / rel` for a string `rel`: split on `/`, dropping
empty segments; `.`/`..` segments are kept until `resolve()`. -/
def pathJoin (base : AbsPath) (rel : String) : AbsPath :=
  base ++ (strSplitOn rel "/").filter (· ≠ "")

/-- `Path.resolve()` (lexical part): drop `.` segments, make `..` pop the
previous segment (at the filesystem root `..` stays at the root). -/
def normSegsAux : List String → List String → List String
  | acc, [] => acc.reverse
  | acc, "." :: rest => normSegsAux acc rest
  | acc, ".." :: rest => normSegsAux acc.tail rest
  | acc, s :: rest => normSegsAux (s :: acc) rest

def resolvePath (p : AbsPath) : AbsPath := normSegsAux [] p

def commonPrefixLen : List String → List String → Nat
  | a :: as, b :: bs => if a = b then commonPrefixLen as bs + 1 else 0
  | _, _ => 0

/-- Modelled from the spec: `ape.utils.get_relative_path(target, anchor)`
(the host framework's helper, not part of this repository) — walk `anchor`
up until it is an ancestor of `target`, emitting one `..` per level, then
append `target`'s remainder; rendered as a `/`-joined string as the code
does with `f"{...}"` (`.` for the empty relative path, like
`str(Path("."))`). -/
def getRelativePathStr (target anchor : AbsPath) : String :=
  let k := commonPrefixLen target anchor
  let parts := List.replicate (anchor.length - k) ".." ++ target.drop k
  if parts.isEmpty then "." else String.intercalate "/" parts

/-- The project of an installed dependency
(`pm.dependencies.get_dependency(name, version).project`). -/
structure DepProject where
  /-- Whether the project is a `LocalProject` (the `.cache` repair pass
  gives up on manifest-based projects). -/
  isLocal : Bool
  path : AbsPath
  contractsFolder : AbsPath
deriving DecidableEq, Repr

/-- One entry of `pm.config.dependencies` as read by the resolver:
its `name` key and its `project` key (a local path), when present. -/
structure ConfigDep where
  name : Option String
  projectPath : Option AbsPath
deriving DecidableEq, Repr

/-- The `ProjectManager` surface the engine consumes: the root path, the
contracts folder, the files on disk, the raw configured dependencies, and
the installed-dependency lookup. -/
structure Project where
  root : AbsPath
  contractsFolder : AbsPath
  fs : Filesystem
  configDependencies : List ConfigDep
  /-- `(name, version) ↦ dependency project` for installed dependencies;
  a missing pair makes `get_dependency` raise. -/
  dependencies : List ((String × String) × DepProject)

/-! ## Import-line extraction (`_utils.get_import_lines`) -/

/-- The inner `while ";" not in import_str` loop: append following lines
(stripped, space-separated) until a semicolon appears; reaching the end of
the file first raises `CompilerError` (`none`). -/
def assembleImport : List String → String → Option String
  | [], cur => if strContains cur ";" then some cur else none
  | l :: ls, cur =>
    if strContains cur ";" then some cur
    else assembleImport ls (cur ++ " " ++ pyStrip l)

/-- Scan one file's lines: each line starting with `import` begins a
statement (continuation lines are also rescanned, as in the Python loop);
identical raw texts are deduplicated through the `import_set`. -/
def importLinesOfFile : List String → List String → Option (List String)
  | [], acc => some acc
  | l :: rest, acc =>
    if strStartsWith l "import" then
      match assembleImport rest l with
      | none => none
      | some s => importLinesOfFile rest (setAdd acc s)
    else importLinesOfFile rest acc

/-- One iteration of the `get_import_lines` loop: a path that exists as a
file contributes its import-line list to the dict; a non-file is skipped
(`continue`) without an entry. -/
def importLinesStep (fs : Filesystem) (acc : List (AbsPath × List String))
    (p : AbsPath) : Option (List (AbsPath × List String)) :=
  if isFile fs p then
    match readFile fs p with
    | none => some acc
    | some content =>
      match importLinesOfFile (pySplitlines content) [] with
      | none => none
      | some ils => some (dictInsert acc p ils)
  else some acc

/-- `get_import_lines`: map each path that exists as a file to its list of
raw import statements; non-files are skipped without an entry. -/
def getImportLines (fs : Filesystem) (paths : List AbsPath) :
    Option (List (AbsPath × List String)) :=
  paths.foldlM (importLinesStep fs) []

/-! ## Import resolution (`SolidityCompiler._import_str_to_source_id`) -/

/-- Python `max(matches, key=lambda x: len(x[0]))`: the first pair whose key
attains the maximum length. -/
def maxByKeyLen : List (String × String) → Option (String × String)
  | [] => none
  | m :: ms =>
    some (ms.foldl (fun best x => if x.1.length > best.1.length then x else best) m)

/-- An import remapping table (`dict[str, str]`, ordered). -/
abbrev Remapping := List (String × String)

/-- `_import_str_to_source_id`: resolve one raw import statement to a source
ID. Returns the resolved ID together with the (possibly repaired) remapping
table, since the `.cache` repair pass corrects the table in place; `none`
models a raised exception (no quote at all → `CompilerError`; no closing
quote → the uncaught `ValueError` of `str.index`; a `.cache` path naming an
uninstalled dependency → the uncaught lookup error). -/
def importStrToSourceId (P : Project) (importStr : String) (sourcePath : AbsPath)
    (remapping : Remapping) : Option (String × Remapping) :=
  let quote : Char := if strContains importStr "\"" then '"' else '\''
  let sep : Char := if strContains importStr "\\" then '\\' else '/'
  let sepStr : String := String.singleton sep
  if !importStr.data.contains quote then
    none
  else
    let afterQuote := (importStr.data.dropWhile (· ≠ quote)).drop 1
    if !afterQuote.contains quote then
      none
    else
      let value0 : String := ⟨afterQuote.takeWhile (· ≠ quote)⟩
      let validMatches := remapping.filter fun e => strContains value0 e.1
      let remapKey? : Option String := (maxByKeyLen validMatches).map (·.1)
      let value : String :=
        match maxByKeyLen validMatches with
        | none => value0
        | some (k, v) => strReplace value0 k v
      let basePath? : Option AbsPath :=
        if strStartsWith value "." then
          some sourcePath.dropLast
        else if isFile P.fs (pathJoin P.root value) then
          some P.root
        else if isFile P.fs (pathJoin P.contractsFolder value) then
          some P.contractsFolder
        else
          match remapKey? with
          | some k =>
            if strStartsWith k "@" then
              let nm : String := ⟨k.data.drop 1⟩
              P.configDependencies.foldl
                (fun acc cfg =>
                  match cfg.projectPath with
                  | some proj =>
                    if cfg.name = some nm && isFile P.fs (pathJoin proj value) then
                      some proj
                    else acc
                  | none => acc)
                none
            else none
          | none => none
      let parts := strSplitOn value sepStr
      match basePath? with
      | some basePath =>
        some (getRelativePathStr (resolvePath (pathJoin basePath value)) P.root,
          remapping)
      | none =>
        if parts.contains ".cache" then
          let cacheIndex := parts.indexOf ".cache"
          let nmIndex := cacheIndex + 1
          let versionIndex := nmIndex + 1
          if versionIndex ≥ parts.length then
            some (value, remapping)
          else
            let cacheFolderName := parts.getD nmIndex ""
            let cacheFolderVersion := parts.getD versionIndex ""
            match dictGet P.dependencies (cacheFolderName, cacheFolderVersion) with
            | none => none
            | some depProject =>
              if !depProject.isLocal then
                some (value, remapping)
              else
                let contractsFolderName :=
                  getRelativePathStr depProject.contractsFolder depProject.path
                let prefixPth := pathJoin depProject.path contractsFolderName
                let suffix := String.intercalate sepStr (parts.drop (versionIndex + 1))
                let newPath := pathJoin prefixPth suffix
                if !isFile P.fs newPath then
                  some (value, remapping)
                else
                  let adjustedBasePath :=
                    String.intercalate sepStr (parts.take 4) ++ sepStr ++
                      contractsFolderName
                  let adjustedSrcId := adjustedBasePath ++ sepStr ++ suffix
                  let remapping2 :=
                    match remapKey? with
                    | some k =>
                      if k ≠ "" then dictInsert remapping k adjustedBasePath
                      else remapping
                    | none => remapping
                  some (adjustedSrcId, remapping2)
        else
          some (value, remapping)

/-! ## The import graph (`SolidityCompiler._get_imports`) -/

/-- Resolve each raw import of one file in order, threading the (possibly
repaired) remapping table; the result is the `import_map` dict of
`_get_imports` (raw text ↦ resolved source ID). -/
def resolveImports (P : Project) (srcPath : AbsPath) :
    List String → Remapping → Option (List (String × String) × Remapping)
  | [], remap => some ([], remap)
  | x :: xs, remap =>
    match importStrToSourceId P x srcPath remap with
    | none => none
    | some (sid, remap2) =>
      match resolveImports P srcPath xs remap2 with
      | none => none
      | some (restMap, remap3) => some ((x, sid) :: restMap, remap3)

/-- The traversal state of `_get_imports`: the per-call `result` dict, the
shared `tracked` set, and the shared remapping table. -/
abbrev ImportsState := List (String × List String) × List String × Remapping

/-- `{k: result[k] for k in sorted(result.keys())}`. -/
def sortResultKeys (result : List (String × List String)) :
    List (String × List String) :=
  (sortStrings (result.map (·.1))).filterMap fun k =>
    (dictGet result k).map fun v => (k, v)

/-- One `sub_set` merge step of `_get_imports`: append unseen sub-imports to
the current import list, then keep it sorted. -/
def mergeSubSet (cur subSet : List String) : List String :=
  sortStrings (subSet.foldl (fun c s => if s ∈ c then c else c ++ [s]) cur)

/-- The body of `_get_imports`, with explicit fuel bounding the recursion
depth (the Python recursion terminates because the shared `tracked` set
gains the current source ID before every recursive call; the wrapper
passes fuel `|filesystem| + 1`, which that argument shows to be enough,
and the theorems check on concrete runs that the fuel is not exhausted). -/
def getImportsGo (P : Project) :
    Nat → List AbsPath → List String → Remapping → Option ImportsState
  | 0, _, _, _ => none
  | fuel + 1, paths, tracked0, remap0 =>
    match getImportLines P.fs paths with
    | none => none
    | some ils =>
      let processed :=
        ils.foldlM
          (fun (st : ImportsState) entry => do
            let (result, tracked, remap) := st
            let (srcPath, importStrs) := entry
            let sourceId := getRelativePathStr srcPath P.root
            if sourceId ∈ tracked then
              pure st
            else
              let tracked := tracked ++ [sourceId]
              let (importMap, remap) ← resolveImports P srcPath importStrs remap
              let importSourceIds := setOfList (importMap.map (·.2))
              let result := dictInsert result sourceId importSourceIds
              if importSourceIds.isEmpty then
                pure (result, tracked, remap)
              else
                let knownImports :=
                  importSourceIds.filterMap fun p =>
                    (dictGet result p).map fun v => (p, v)
                let impPaths :=
                  (importSourceIds.filter fun p => !dictHasKey result p).map
                    (pathJoin P.root)
                let (unknownImports, tracked, remap) ←
                  getImportsGo P fuel impPaths tracked remap
                let subImports := dictMerge knownImports unknownImports
                let merged :=
                  subImports.foldl
                    (fun cur e => mergeSubSet cur e.2)
                    ((dictGet result sourceId).getD [])
                let result := dictInsert result sourceId merged
                let result := dictMerge result subImports
                pure (result, tracked, remap))
          ([], tracked0, remap0)
      match processed with
      | none => none
      | some (result, tracked, remap) =>
        some (sortResultKeys result, tracked, remap)

/-- `get_imports_from_remapping` (∘ `_get_imports` with a fresh `tracked`
set): the import graph as a map source ID ↦ transitively closed import
list. `none` models an exception (or exhausted fuel, which a complete run
shows not to happen). -/
def getImportsFromRemapping (P : Project) (paths : List AbsPath)
    (remapping : Remapping) : Option (List (String × List String)) :=
  (getImportsGo P (P.fs.length + 1) paths [] remapping).map (·.1)

/-! ## Transitive imports of one file
(`SolidityCompiler._get_imported_source_paths`) -/

/-- Fuel bound for walks over an import map. -/
def importsFuel (imports : List (String × List String)) : Nat :=
  imports.foldl (fun a e => a + 1 + e.2.length) 1

/-- `_get_imported_source_paths`: all paths (transitively) imported by
`path` according to the import map, guarded by the shared
`source_ids_checked` list; empty-string import IDs are dropped (`if i`). -/
def getImportedSourcePathsGo (imports : List (String × List String))
    (root : AbsPath) :
    Nat → AbsPath → List String → (List AbsPath × List String)
  | 0, _, checked => ([], checked)
  | fuel + 1, path, checked =>
    let sourceIdentifier := getRelativePathStr path root
    if sourceIdentifier ∈ checked then ([], checked)
    else
      let checked := checked ++ [sourceIdentifier]
      let importFilePaths :=
        (((dictGet imports sourceIdentifier).getD []).filter (· ≠ "")).map
          (pathJoin root)
      let returnSet := setOfList importFilePaths
      importFilePaths.foldl
        (fun (acc : List AbsPath × List String) importPath =>
          let (indirect, checked2) :=
            getImportedSourcePathsGo imports root fuel importPath acc.2
          (indirect.foldl setAdd acc.1, checked2))
        (returnSet, checked)

/-- `_get_imported_source_paths` with its default fresh `checked` list. -/
def getImportedSourcePaths (imports : List (String × List String))
    (root : AbsPath) (path : AbsPath) : List AbsPath :=
  (getImportedSourcePathsGo imports root (importsFuel imports) path []).1

/-! ## The solc toolchain environment -/

/-- The external `solcx` state consumed by the compiler: installed and
installable version lists, the configured version (config `version:` key,
parsed), and the commit-hash oracle (`add_commit_hash` runs the installed
binary to learn its `+commit.…` qualifier; the model abstracts that call
as a function). -/
structure SolcEnv where
  installed : List PVersion
  available : List PVersion
  configured : Option PVersion
  commitOf : PVersion → PVersion

/-- `install_solc(version)`: afterwards the version (sans commit hash)
appears among the installed versions. -/
def installSolc (env : SolcEnv) (v : PVersion) : SolcEnv :=
  { env with installed := env.installed ++ [stripCommitHash v] }

/-- `add_commit_hash`: a version that already carries a commit hash is
returned unchanged, otherwise the binary is asked for its full version. -/
def addCommitHash (env : SolcEnv) (v : PVersion) : PVersion :=
  if v.commit.isSome then v else env.commitOf v

/-- `latest_version` = `_try_max(available_versions)`. -/
def latestVersion (env : SolcEnv) : Option PVersion := pyMaxVersion env.available

/-- `latest_installed_version` = `_try_max(installed_versions)`. -/
def latestInstalledVersion (env : SolcEnv) : Option PVersion :=
  pyMaxVersion env.installed

/-- Python truthiness of an optional `SpecifierSet`: `None` and the empty
set are both falsy (`if pragma_spec := ...`). -/
def pyTruthySpec : Option SpecSet → Option SpecSet
  | some [] => none
  | x => x

/-- `_get_best_version(path, pragma_map)`: with a (truthy) constraint, the
best installed version satisfying it, else the best available one (which
is installed on the spot); without a constraint the latest installed (or
latest available, installed on the spot) version. Every result passes
through `add_commit_hash`. `none` models the raised
`AssertionError`/`SolcInstallError` when nothing fits. -/
def getBestVersion (env : SolcEnv) (spec? : Option SpecSet) :
    Option (PVersion × SolcEnv) :=
  match pyTruthySpec spec? with
  | some spec =>
    match selectVersion spec env.installed with
    | some selected => some (addCommitHash env selected, env)
    | none =>
      match selectVersion spec env.available with
      | some selected =>
        let env2 := installSolc env selected
        some (addCommitHash env2 (addCommitHash env2 selected), env2)
      | none => none
  | none =>
    match latestInstalledVersion env with
    | some v => some (addCommitHash env v, env)
    | none =>
      match latestVersion env with
      | some v =>
        let env2 := installSolc env v
        some (addCommitHash env2 v, env2)
      | none => none

/-! ## The version map (`SolidityCompiler.get_version_map_from_imports`) -/

/-- `get_pragma_spec_from_path`: `None` for a non-file, else the pragma of
its text. -/
def getPragmaSpecFromPath (fs : Filesystem) (p : AbsPath) : Option SpecSet :=
  match readFile fs p with
  | none => none
  | some content => getPragmaSpecFromStr content

/-- The exact-pin test of the version-map loop:
`str(spec)[0].startswith("=") or str(spec)[0].isdigit()`. Indexing `[0]`
on the string form of an empty `SpecifierSet` raises (`none`). -/
def specSetIsPinned (specs : SpecSet) : Option Bool :=
  match (specSetStr specs).data with
  | [] => none
  | c :: _ => some (c = '=' || c.isDigit)

/-- The inner loop of `get_version_map_from_imports` over one file's
transitive imports: an import whose constraint is an exact pin overrides
the candidate version outright and `break`s; otherwise a strictly
lower import version lowers the candidate. `_get_best_version` runs for every
inspected import (possibly installing, hence the threaded environment). -/
def adjustVersionFromImports (pragmaMap : List (AbsPath × Option SpecSet)) :
    List AbsPath → SolcEnv → PVersion → Option (PVersion × SolcEnv)
  | [], env, cur => some (cur, env)
  | q :: rest, env, cur =>
    if !dictHasKey pragmaMap q then
      adjustVersionFromImports pragmaMap rest env cur
    else
      let spec? := (dictGet pragmaMap q).getD none
      match getBestVersion env spec? with
      | none => none
      | some (importedVersion, env2) =>
        match spec? with
        | some s =>
          match specSetIsPinned s with
          | none => none
          | some true => some (importedVersion, env2)
          | some false =>
            adjustVersionFromImports pragmaMap rest env2
              (if pvLt importedVersion cur then importedVersion else cur)
        | none =>
          adjustVersionFromImports pragmaMap rest env2
            (if pvLt importedVersion cur then importedVersion else cur)

/-- The main loop of `get_version_map_from_imports` (lines building
`files_by_solc_version`): per file, its best version adjusted by its
imports; the file and all its imports join that version's group. -/
def versionMapLoop (P : Project) (pragmaMap : List (AbsPath × Option SpecSet))
    (importMap : List (String × List String)) :
    List AbsPath → SolcEnv → List (PVersion × List AbsPath) →
    Option (List (PVersion × List AbsPath) × SolcEnv)
  | [], env, filesBy => some (filesBy, env)
  | p :: rest, env, filesBy =>
    match getBestVersion env ((dictGet pragmaMap p).getD none) with
    | none => none
    | some (v0, env1) =>
      let imported := getImportedSourcePaths importMap P.root p
      match adjustVersionFromImports pragmaMap imported env1 v0 with
      | none => none
      | some (solcVersion, env2) =>
        let group := (p :: imported).foldl setAdd
          ((dictGet filesBy solcVersion).getD [])
        versionMapLoop P pragmaMap importMap rest env2
          (dictInsert filesBy solcVersion group)

/-- `defaultdict(set)` add. -/
def ddAdd (d : List (PVersion × List AbsPath)) (k : PVersion) (x : AbsPath) :
    List (PVersion × List AbsPath) :=
  dictInsert d k (setAdd ((dictGet d k).getD []) x)

/-- `if other_file in cleaned_mapped[v]: cleaned_mapped[v].remove(...)`:
the `defaultdict` access creates the (possibly empty) entry, then the
element is removed when present. -/
def ddRemoveIfMem (d : List (PVersion × List AbsPath)) (k : PVersion)
    (x : AbsPath) : List (PVersion × List AbsPath) :=
  let d2 := if dictHasKey d k then d else d ++ [(k, [])]
  let cur := (dictGet d2 k).getD []
  if x ∈ cur then dictInsert d2 k (setRemove cur x) else d2

/-- The consolidation pass of `get_version_map_from_imports`: a file found
in several version groups is kept in a group iff some other file of that
group (one not also present in the other version) may still need it;
otherwise the files shared with the other version are removed. -/
def consolidateVersionMap (filesBy : List (PVersion × List AbsPath)) :
    List (PVersion × List AbsPath) :=
  filesBy.foldl
    (fun cleaned entry =>
      let solcVersion := entry.1
      let files := entry.2
      let otherVersions := filesBy.filter fun e => e.1 ≠ solcVersion
      files.foldl
        (fun cleaned file =>
          let usedIn := (otherVersions.filter fun e => file ∈ e.2).map (·.1)
          if usedIn.isEmpty then ddAdd cleaned solcVersion file
          else
            usedIn.foldl
              (fun cleaned otherVersion =>
                let otherFiles := (dictGet otherVersions otherVersion).getD []
                let mayNeed := files.filter fun f => f ≠ file && f ∉ otherFiles
                if !mayNeed.isEmpty then ddAdd cleaned solcVersion file
                else
                  let canRemove := files.filter fun f => f ≠ file && f ∈ otherFiles
                  canRemove.foldl
                    (fun cleaned otherFile =>
                      ddRemoveIfMem cleaned solcVersion otherFile)
                    cleaned)
              cleaned)
        cleaned)
    []

/-- Python `sorted(versions)`. -/
def sortVersions (l : List PVersion) : List PVersion := l.insertionSort (pvLe · ·)

/-- The pragma map of `get_version_map_from_imports`
(`{p: get_pragma_spec_from_path(p) for p in path_set}`). -/
def versionMapPragmas (P : Project) (pathSet : List AbsPath) :
    List (AbsPath × Option SpecSet) :=
  pathSet.map fun p => (p, getPragmaSpecFromPath P.fs p)

/-- The pre-loop auto-install of `get_version_map_from_imports`: with no
installed version and no pragma anywhere, the latest available version is
installed up front. -/
def versionMapAutoInstall (env : SolcEnv)
    (pragmaMap : List (AbsPath × Option SpecSet)) : SolcEnv :=
  if env.installed.isEmpty &&
      !(pragmaMap.any fun e => pyTruthySpec e.2 ≠ none) then
    match latestVersion env with
    | some latest => installSolc env latest
    | none => env
  else env

/-- The post-consolidation commit-hash pass
(`{add_commit_hash(v): ls for v, ls in cleaned_mapped.items()}`). -/
def versionMapWithCommits (env2 : SolcEnv)
    (cleaned : List (PVersion × List AbsPath)) :
    List (PVersion × List AbsPath) :=
  cleaned.foldl (fun r e => dictInsert r (addCommitHash env2 e.1) e.2) []

/-- The final step of `get_version_map_from_imports`: sort the version keys
and drop any lingering empty groups
(`{k: result[k] for k in sorted(result) if result[k]}`). -/
def finalizeVersionMap (env2 : SolcEnv)
    (cleaned : List (PVersion × List AbsPath)) :
    List (PVersion × List AbsPath) :=
  (sortVersions ((versionMapWithCommits env2 cleaned).map (·.1))).filterMap
    fun k =>
      match dictGet (versionMapWithCommits env2 cleaned) k with
      | none => none
      | some ls => if ls.isEmpty then none else some (k, ls)

/-- The pragma-driven branch of `get_version_map_from_imports` (everything
after the configured-version check). -/
def versionMapCore (P : Project) (env : SolcEnv) (pathSet : List AbsPath)
    (importMap : List (String × List String)) :
    Option (List (PVersion × List AbsPath)) :=
  match versionMapLoop P (versionMapPragmas P pathSet) importMap pathSet
      (versionMapAutoInstall env (versionMapPragmas P pathSet)) [] with
  | none => none
  | some pr => some (finalizeVersionMap pr.2 (consolidateVersionMap pr.1))

/-- The path-set expansion of `get_version_map_from_imports`: the requested
paths plus, for each requested file with a non-empty import-map entry, the
paths of its recorded imports. -/
def versionMapPathSet (P : Project) (paths : List AbsPath)
    (importMap : List (String × List String)) : List AbsPath :=
  paths.foldl
    (fun ps sourcePath =>
      let sourceId := getRelativePathStr sourcePath P.root
      match dictGet importMap sourceId with
      | none => ps
      | some ids =>
        if ids.isEmpty then ps
        else ids.foldl (fun ps i => setAdd ps (pathJoin P.root i)) ps)
    (setOfList paths)

/-- `get_version_map_from_imports`: expand the requested files with their
imports, honor a configured version, build per-file best versions with
exact-pin propagation, consolidate, add commit hashes, and return the map
sorted by version with empty groups dropped. `none` models a raised
exception on any path. -/
def getVersionMapFromImports (P : Project) (env : SolcEnv)
    (paths : List AbsPath) (importMap : List (String × List String)) :
    Option (List (PVersion × List AbsPath)) :=
  let pathSet := versionMapPathSet P paths importMap
  match env.configured with
  | some cfgV =>
    -- `_get_configured_version`: install the base version if needed, attach
    -- the commit hash, and reject a mismatching configured hash.
    let base := stripCommitHash cfgV
    let env1 := if base ∈ env.installed then env else installSolc env base
    let settingsVersion := addCommitHash env1 base
    if cfgV.commit.isSome && settingsVersion ≠ cfgV then none
    else some [(settingsVersion, pathSet)]
  | none => versionMapCore P env pathSet importMap

/-! ## Input validation (`_validate_can_compile`,
`_utils.verify_contract_filepaths`) -/

/-- `Path.name`. -/
def pathName (p : AbsPath) : String := p.getLastD ""

/-- `Path.suffix`: the final `.`-suffix of the name; empty when the name has
no interior dot. -/
def pathSuffix (p : AbsPath) : String :=
  let nm := (pathName p).data
  if !nm.contains '.' then ""
  else
    let i := nm.length - 1 - (nm.reverse.indexOf '.')
    if 0 < i && i < nm.length - 1 then ⟨nm.drop i⟩ else ""

/-- Modelled from the spec: `ape.utils.get_full_extension` (a helper of the
host framework, not part of this repository) — "an input file's
extension": everything from the first dot of the file name (a leading dot
of a hidden file does not start an extension). For single-extension names
like `A.sol` or `a.txt` this agrees with `Path.suffix`. -/
def getFullExtension (p : AbsPath) : String :=
  let nm := pathName p
  let body : List Char := if strStartsWith nm "." then nm.data.drop 1 else nm.data
  if !body.contains '.' then "" else ⟨body.dropWhile (· ≠ '.')⟩

/-- `Extension.SOL.value`, the only member of the `Extension` enum. -/
def solExtension : String := ".sol"

/-- The `extensions` dict of `_validate_can_compile`
(`{get_full_extension(p): p for p in paths}`; later paths with the same
extension overwrite earlier ones, keeping the first position). -/
def pathExtensionsDict (paths : List AbsPath) : List (String × AbsPath) :=
  paths.foldl (fun d p => dictInsert d (getFullExtension p) p) []

/-- `_validate_can_compile`: collect `{extension: path}`, then raise on the
first extension that is not `.sol`, naming only that extension's one
recorded file. -/
def validateCanCompile (paths : List AbsPath) : Except String Unit :=
  match (pathExtensionsDict paths).find? fun e => !(e.1 = solExtension) with
  | some e =>
    .error ("Unable to compile '" ++ pathName e.2 ++ "' using Solidity compiler.")
  | none => .ok ()

/-- The `invalid_files` list of `verify_contract_filepaths`: the names of
every input whose suffix is not `.sol`. -/
def invalidSourceNames (paths : List AbsPath) : List String :=
  (paths.filter fun p => pathSuffix p ≠ solExtension).map pathName

/-- `verify_contract_filepaths`: collect every file whose suffix is not
`.sol` and raise one error listing all of their names; otherwise return
the paths as a set. -/
def verifyContractFilepaths (paths : List AbsPath) :
    Except String (List AbsPath) :=
  if (invalidSourceNames paths).isEmpty then .ok (setOfList paths)
  else
    .error ("Unable to compile '" ++
      String.intercalate "', '" (invalidSourceNames paths) ++
      "' using Solidity compiler.")

/-! ## Helper lemmas: dictionaries and sets -/

theorem dictGet_hasKey {α β : Type} [DecidableEq α] {d : List (α × β)} {k : α}
    {v : β} (h : dictGet d k = some v) : dictHasKey d k = true := by
  induction d with
  | nil => simp [dictGet] at h
  | cons e rest ih =>
    by_cases hek : e.1 = k
    · simp [dictHasKey, List.any_cons, hek]
    · have h2 : dictGet rest k = some v := by
        simpa [dictGet, List.find?_cons, hek] using h
      simp only [dictHasKey, List.any_cons, Bool.or_eq_true]
      exact Or.inr (ih h2)

theorem dictInsert_hasKey {α β : Type} [DecidableEq α] (d : List (α × β))
    (k : α) (v : β) (q : α) :
    dictHasKey (dictInsert d k v) q = true ↔ dictHasKey d q = true ∨ q = k := by
  unfold dictInsert dictHasKey
  have hpt : ∀ e : α × β, (if e.1 = k then (k, v) else e).1 = q ↔ e.1 = q := by
    intro e
    by_cases hek : e.1 = k <;> simp [hek]
  split
  · next hany =>
    simp only [List.any_eq_true, decide_eq_true_eq] at hany
    simp only [List.any_map, List.any_eq_true, List.mem_map, Function.comp,
      decide_eq_true_eq]
    constructor
    · rintro ⟨e, he, hp⟩
      exact Or.inl ⟨e, he, (hpt e).mp hp⟩
    · rintro (⟨e, he, hp⟩ | rfl)
      · exact ⟨e, he, (hpt e).mpr hp⟩
      · obtain ⟨e, he, hp⟩ := hany
        exact ⟨e, he, (hpt e).mpr hp⟩
  · next hany =>
    simp only [List.any_append, List.any_cons, List.any_nil, Bool.or_false,
      Bool.or_eq_true, List.any_eq_true, decide_eq_true_eq]
    constructor
    · rintro (h | h)
      · exact Or.inl h
      · exact Or.inr h.symm
    · rintro (h | rfl)
      · exact Or.inl h
      · exact Or.inr rfl

theorem setAdd_nodup {α : Type} [DecidableEq α] {s : List α} (x : α)
    (h : s.Nodup) : (setAdd s x).Nodup := by
  unfold setAdd
  by_cases hx : x ∈ s
  · simpa [hx] using h
  · simp [hx, List.nodup_append, h]

/-! ## Helper lemmas: the version ordering -/

theorem natCompare_swap (a b : Nat) : compare a b = (compare b a).swap := by
  rcases Nat.lt_trichotomy a b with h | rfl | h
  · rw [Nat.compare_eq_lt.mpr h, Nat.compare_eq_gt.mpr h]; rfl
  · rw [Nat.compare_eq_eq.mpr rfl]; rfl
  · rw [Nat.compare_eq_gt.mpr h, Nat.compare_eq_lt.mpr h]; rfl

theorem releaseCmp_nil_right (as : List Nat) :
    releaseCmp as [] = if as.all (· == 0) then .eq else .gt := by
  cases as <;> simp [releaseCmp]

theorem releaseCmp_nil_left (bs : List Nat) :
    releaseCmp [] bs = if bs.all (· == 0) then .eq else .lt := by
  cases bs <;> simp [releaseCmp]

theorem releaseCmp_zeros_right {bs : List Nat} (h : bs.all (· == 0) = true) :
    ∀ as, releaseCmp as bs = releaseCmp as [] := by
  induction bs with
  | nil => intro as; rfl
  | cons b bs ih =>
    intro as
    simp only [List.all_cons, Bool.and_eq_true, beq_iff_eq] at h
    obtain ⟨rfl, hbs⟩ := h
    cases as with
    | nil =>
      rw [releaseCmp_nil_left, releaseCmp]
      simp [hbs]
    | cons a as2 =>
      cases hca : compare a 0 with
      | eq =>
        have ha : a = 0 := Nat.compare_eq_eq.mp hca
        subst ha
        simp only [releaseCmp, hca]
        rw [ih hbs as2, releaseCmp_nil_right]
        simp
      | lt =>
        exact absurd (Nat.compare_eq_lt.mp hca) (Nat.not_lt_zero a)
      | gt =>
        have ha : 0 < a := Nat.compare_eq_gt.mp hca
        have hne : ((a :: as2).all (· == 0)) ≠ true := by
          intro hcontra
          simp only [List.all_cons, Bool.and_eq_true, beq_iff_eq] at hcontra
          omega
        simp only [releaseCmp, hca, hne]
        simp [hne]

theorem releaseCmp_swap (a : List Nat) : ∀ b, releaseCmp a b = (releaseCmp b a).swap := by
  induction a with
  | nil =>
    intro b
    cases b with
    | nil => rfl
    | cons y bs =>
      rw [releaseCmp_nil_left, releaseCmp_nil_right]
      split <;> rfl
  | cons x as ih =>
    intro b
    cases b with
    | nil =>
      rw [releaseCmp_nil_left, releaseCmp_nil_right]
      split <;> rfl
    | cons y bs =>
      show releaseCmp (x :: as) (y :: bs) = (releaseCmp (y :: bs) (x :: as)).swap
      rw [releaseCmp, releaseCmp, natCompare_swap x y]
      cases compare y x with
      | eq => simpa using ih bs
      | lt => rfl
      | gt => rfl

theorem releaseCmp_zeros_left {as : List Nat} (h : as.all (· == 0) = true) :
    ∀ bs, releaseCmp as bs = releaseCmp [] bs := by
  intro bs
  rw [releaseCmp_swap, releaseCmp_zeros_right h, releaseCmp_nil_right,
    releaseCmp_nil_left]
  split <;> rfl

theorem releaseCmp_le_trans (a : List Nat) :
    ∀ b c, releaseCmp a b ≠ .gt → releaseCmp b c ≠ .gt → releaseCmp a c ≠ .gt := by
  induction a with
  | nil =>
    intro b c _ _
    rw [releaseCmp_nil_left]
    split <;> simp
  | cons x as ih =>
    intro b c h1 h2
    cases b with
    | nil =>
      have hz : (x :: as).all (· == 0) = true := by
        rw [releaseCmp_nil_right] at h1
        by_contra hnz
        simp [hnz] at h1
      rw [releaseCmp_zeros_left hz, releaseCmp_nil_left]
      split <;> simp
    | cons y bs =>
      cases c with
      | nil =>
        have hzb : (y :: bs).all (· == 0) = true := by
          rw [releaseCmp_nil_right] at h2
          by_contra hnz
          simp [hnz] at h2
        rw [releaseCmp_zeros_right hzb] at h1
        rw [releaseCmp_nil_right] at h1 ⊢
        intro hnz
        split at hnz
        · exact Ordering.noConfusion hnz
        · next hfalse => simp [hfalse] at h1
      | cons z cs =>
        rw [releaseCmp] at h1 h2 ⊢
        cases hxy : compare x y with
        | gt => exact (h1 (by rw [hxy])).elim
        | eq =>
          rw [hxy] at h1
          have hx : x = y := Nat.compare_eq_eq.mp hxy
          cases hyz : compare y z with
          | gt => exact (h2 (by rw [hyz])).elim
          | eq =>
            rw [hyz] at h2
            have hy : y = z := Nat.compare_eq_eq.mp hyz
            rw [Nat.compare_eq_eq.mpr (hx.trans hy)]
            exact ih bs cs h1 h2
          | lt =>
            have hyz2 : y < z := Nat.compare_eq_lt.mp hyz
            rw [Nat.compare_eq_lt.mpr (hx ▸ hyz2)]
            simp
        | lt =>
          have hx : x < y := Nat.compare_eq_lt.mp hxy
          cases hyz : compare y z with
          | gt => exact (h2 (by rw [hyz])).elim
          | eq =>
            have hy : y = z := Nat.compare_eq_eq.mp hyz
            rw [Nat.compare_eq_lt.mpr (hy ▸ hx)]
            simp
          | lt =>
            have hyz2 : y < z := Nat.compare_eq_lt.mp hyz
            rw [Nat.compare_eq_lt.mpr (Nat.lt_trans hx hyz2)]
            simp

theorem releaseCmp_refl (a : List Nat) : releaseCmp a a = .eq := by
  induction a with
  | nil => rfl
  | cons x as ih => rw [releaseCmp, Nat.compare_eq_eq.mpr rfl, ih]

theorem pvCmp_none {a b : PVersion} (ha : a.commit = none) (hb : b.commit = none) :
    pvCmp a b = releaseCmp a.release b.release := by
  unfold pvCmp
  rw [ha, hb]
  cases releaseCmp a.release b.release <;> rfl

theorem pvCmp_swap_none {a b : PVersion} (ha : a.commit = none)
    (hb : b.commit = none) : pvCmp a b = (pvCmp b a).swap := by
  rw [pvCmp_none ha hb, pvCmp_none hb ha, releaseCmp_swap]

theorem pvCmp_le_trans_none {a b c : PVersion} (ha : a.commit = none)
    (hb : b.commit = none) (hc : c.commit = none) :
    pvCmp a b ≠ .gt → pvCmp b c ≠ .gt → pvCmp a c ≠ .gt := by
  rw [pvCmp_none ha hb, pvCmp_none hb hc, pvCmp_none ha hc]
  exact releaseCmp_le_trans _ _ _

theorem pvCmp_refl_none {a : PVersion} (ha : a.commit = none) :
    pvCmp a a = .eq := by
  rw [pvCmp_none ha ha, releaseCmp_refl]

/-! ## Helper lemmas: `select_version` maximality -/

theorem pyMaxFoldAux :
    ∀ (xs : List PVersion) (b : PVersion),
      (∀ v ∈ xs, v.commit = none) → b.commit = none →
      ∃ r, List.foldl
          (fun best x =>
            match best with
            | none => some x
            | some bb => if pvCmp x bb = .gt then some x else some bb)
          (some b) xs = some r ∧
        (r = b ∨ r ∈ xs) ∧ r.commit = none ∧ pvCmp b r ≠ .gt ∧
        ∀ x ∈ xs, pvCmp x r ≠ .gt := by
  intro xs
  induction xs with
  | nil =>
    intro b _ hb
    refine ⟨b, rfl, Or.inl rfl, hb, ?_, by simp⟩
    rw [pvCmp_refl_none hb]
    simp
  | cons x rest ih =>
    intro b hxs hb
    have hx : x.commit = none := hxs x (List.mem_cons_self _ _)
    simp only [List.foldl_cons]
    by_cases hgt : pvCmp x b = .gt
    · rw [if_pos hgt]
      obtain ⟨r, hr, hmem, hrc, hxr, hall⟩ :=
        ih x (fun v hv => hxs v (List.mem_cons_of_mem x hv)) hx
      refine ⟨r, hr, ?_, hrc, ?_, ?_⟩
      · rcases hmem with rfl | hmem
        · exact Or.inr (List.mem_cons_self _ _)
        · exact Or.inr (List.mem_cons_of_mem x hmem)
      · have hbx : pvCmp b x ≠ .gt := by
          rw [pvCmp_swap_none hb hx, hgt]
          decide
        exact pvCmp_le_trans_none hb hx hrc hbx hxr
      · intro w hw
        rcases List.mem_cons.mp hw with rfl | hw
        · exact hxr
        · exact hall w hw
    · rw [if_neg hgt]
      obtain ⟨r, hr, hmem, hrc, hbr, hall⟩ :=
        ih b (fun v hv => hxs v (List.mem_cons_of_mem x hv)) hb
      refine ⟨r, hr, ?_, hrc, hbr, ?_⟩
      · rcases hmem with rfl | hmem
        · exact Or.inl rfl
        · exact Or.inr (List.mem_cons_of_mem x hmem)
      · intro w hw
        rcases List.mem_cons.mp hw with rfl | hw
        · exact pvCmp_le_trans_none hx hb hrc hgt hbr
        · exact hall w hw

theorem pyMaxVersion_spec {xs : List PVersion} {r : PVersion}
    (hc : ∀ v ∈ xs, v.commit = none) (h : pyMaxVersion xs = some r) :
    r ∈ xs ∧ ∀ x ∈ xs, pvCmp x r ≠ .gt := by
  unfold pyMaxVersion at h
  cases xs with
  | nil => simp at h
  | cons x rest =>
    simp only [List.foldl_cons] at h
    obtain ⟨r2, hr2, hmem, -, hxr, hall⟩ :=
      pyMaxFoldAux rest x (fun v hv => hc v (List.mem_cons_of_mem x hv))
        (hc x (List.mem_cons_self _ _))
    rw [hr2] at h
    obtain rfl : r2 = r := by simpa using h
    refine ⟨?_, ?_⟩
    · rcases hmem with rfl | hmem
      · exact (List.mem_cons_self _ _)
      · exact List.mem_cons_of_mem x hmem
    · intro w hw
      rcases List.mem_cons.mp hw with rfl | hw
      · exact hxr
      · exact hall w hw

/-- The maximality property of `select_version`: when it returns a version,
that version is an option satisfying the constraint, and no satisfying
option is strictly newer. -/
theorem selectVersion_spec {ss : SpecSet} {opts : List PVersion} {v : PVersion}
    (hc : ∀ w ∈ opts, w.commit = none) (h : selectVersion ss opts = some v) :
    v ∈ opts ∧ specSetContains ss v = true ∧
      ∀ w ∈ opts, specSetContains ss w = true → pvLe w v = true := by
  unfold selectVersion at h
  have hcf : ∀ w ∈ opts.filter (fun w => specSetContains ss w), w.commit = none :=
    fun w hw => hc w (List.mem_of_mem_filter hw)
  obtain ⟨hmem, hall⟩ := pyMaxVersion_spec hcf h
  have hm := List.mem_filter.mp hmem
  refine ⟨hm.1, by simpa using hm.2, ?_⟩
  intro w hw hws
  have hwf : w ∈ opts.filter (fun w => specSetContains ss w) :=
    List.mem_filter.mpr ⟨hw, by simpa using hws⟩
  unfold pvLe
  simpa using hall w hwf

/-! ## Helper lemmas: longest-remap-key selection -/

theorem maxByKeyLenAux (ms : List (String × String)) :
    ∀ m : String × String,
      ∃ r, ms.foldl (fun best x => if x.1.length > best.1.length then x else best)
          m = r ∧
        (r = m ∨ r ∈ ms) ∧ m.1.length ≤ r.1.length ∧
        ∀ x ∈ ms, x.1.length ≤ r.1.length := by
  induction ms with
  | nil =>
    intro m
    exact ⟨m, rfl, Or.inl rfl, Nat.le_refl _, by simp⟩
  | cons x rest ih =>
    intro m
    simp only [List.foldl_cons]
    by_cases hx : x.1.length > m.1.length
    · rw [if_pos hx]
      obtain ⟨r, hr, hmem, hle, hall⟩ := ih x
      refine ⟨r, hr, ?_, Nat.le_trans (Nat.le_of_lt hx) hle, ?_⟩
      · rcases hmem with rfl | hmem
        · exact Or.inr (List.mem_cons_self _ _)
        · exact Or.inr (List.mem_cons_of_mem x hmem)
      · intro w hw
        rcases List.mem_cons.mp hw with rfl | hw
        · exact hle
        · exact hall w hw
    · rw [if_neg hx]
      obtain ⟨r, hr, hmem, hle, hall⟩ := ih m
      refine ⟨r, hr, ?_, hle, ?_⟩
      · rcases hmem with rfl | hmem
        · exact Or.inl rfl
        · exact Or.inr (List.mem_cons_of_mem x hmem)
      · intro w hw
        rcases List.mem_cons.mp hw with rfl | hw
        · exact Nat.le_trans (Nat.le_of_not_lt hx) hle
        · exact hall w hw

/-- Python `max(matches, key=lambda x: len(x[0]))` picks a member whose key
length is maximal among all matches. -/
theorem maxByKeyLen_spec {ms : List (String × String)} {res : String × String}
    (h : maxByKeyLen ms = some res) :
    res ∈ ms ∧ ∀ x ∈ ms, x.1.length ≤ res.1.length := by
  cases ms with
  | nil => simp [maxByKeyLen] at h
  | cons m rest =>
    obtain ⟨r, hr, hmem, hle, hall⟩ := maxByKeyLenAux rest m
    have h2 : some (rest.foldl
        (fun best x => if x.1.length > best.1.length then x else best) m) =
        some res := h
    rw [hr] at h2
    obtain rfl : r = res := by simpa using h2
    refine ⟨?_, ?_⟩
    · rcases hmem with rfl | hmem
      · exact List.mem_cons_self _ _
      · exact List.mem_cons_of_mem m hmem
    · intro w hw
      rcases List.mem_cons.mp hw with rfl | hw
      · exact hle
      · exact hall w hw

/-! ## Concrete scenarios used by the theorems -/

/-- The project root of the demonstration scenarios. -/
def demoRoot : AbsPath := ["project"]

/-- A demonstration project over a given filesystem, with no configured or
installed dependencies. -/
def demoProject (fs : Filesystem) : Project :=
  { root := demoRoot, contractsFolder := ["project", "contracts"], fs := fs,
    configDependencies := [], dependencies := [] }

/-- A commit-hash oracle for the scenarios: the installed binary reports its
version with a `+commit.…` local part attached. -/
def demoCommitOf (v : PVersion) : PVersion := { v with commit := some "commit" }

/-- A solc environment with the given installed versions, nothing available
to download, and no configured version. -/
def demoEnv (installed : List PVersion) : SolcEnv :=
  { installed := installed, available := [], configured := none,
    commitOf := demoCommitOf }

def pathA : AbsPath := ["project", "A.sol"]
def pathB : AbsPath := ["project", "B.sol"]
def pathC : AbsPath := ["project", "C.sol"]
def pathS : AbsPath := ["project", "S.sol"]
def pathX : AbsPath := ["project", "X.sol"]
def pathY : AbsPath := ["project", "Y.sol"]

/-- Exact-pin scenario: `A.sol` has a caret range, `B.sol` is pinned
`=0.8.12`, and a higher satisfying version `0.8.20` is installed. -/
def pinFs : Filesystem :=
  [(pathA, "pragma solidity ^0.8.0;\ncontract A {}"),
   (pathB, "pragma solidity =0.8.12;\ncontract B {}")]

def pinEnv : SolcEnv := demoEnv [⟨[0, 8, 20], none⟩, ⟨[0, 8, 12], none⟩]

def pinImportMap : List (String × List String) :=
  [("A.sol", ["B.sol"]), ("B.sol", [])]

def pinnedVersion : PVersion := ⟨[0, 8, 12], some "commit"⟩

/-- A pragma map carrying only the pinned `B.sol` entry, used to exercise
the import-adjustment loop directly. -/
def pinPragmaMap : List (AbsPath × Option SpecSet) :=
  [(pathB, some [⟨.eq, "0.8.12", [0, 8, 12], false⟩])]

/-- Shared-import scenario: `A.sol` (caret `0.6`) and `C.sol` (caret `0.7`)
both import the constraint-free `S.sol`; `0.8.20` is also installed. -/
def sharedFs : Filesystem :=
  [(pathA, "pragma solidity ^0.6.0;\ncontract A {}"),
   (pathC, "pragma solidity ^0.7.0;\ncontract C {}"),
   (pathS, "contract S {}")]

def sharedEnv : SolcEnv :=
  demoEnv [⟨[0, 6, 12], none⟩, ⟨[0, 7, 6], none⟩, ⟨[0, 8, 20], none⟩]

def sharedImportMap : List (String × List String) :=
  [("A.sol", ["S.sol"]), ("C.sol", ["S.sol"]), ("S.sol", [])]

/-- The version map the code returns in the shared-import scenario: the
shared file ends up in both groups. -/
def sharedResult : List (PVersion × List AbsPath) :=
  [(⟨[0, 6, 12], some "commit"⟩, [pathA, pathS]),
   (⟨[0, 7, 6], some "commit"⟩, [pathC, pathS])]

/-- Import-cycle scenario: `X.sol` and `Y.sol` import each other. -/
def cycleFs : Filesystem :=
  [(pathX, "import \"./Y.sol\";\ncontract X {}"),
   (pathY, "import \"./X.sol\";\ncontract Y {}")]

def cycleResult : List (String × List String) :=
  [("X.sol", ["X.sol", "Y.sol"]), ("Y.sol", ["X.sol"])]

/-- Unresolved-import scenario: `A.sol` imports a literal no remapping or
file matches, plus an existing relative file. -/
def unresolvedFs : Filesystem :=
  [(pathA, "import \"@nope/X.sol\";\nimport \"./B.sol\";\ncontract A {}"),
   (pathB, "contract B {}")]

def unresolvedResult : List (String × List String) :=
  [("A.sol", ["@nope/X.sol", "B.sol"]), ("B.sol", [])]

/-- Longest-remap-match scenario: both `@vendor` and `@vendor/sub` are
remap keys; the file exists under the more specific value `B`. -/
def remapFs : Filesystem :=
  [(["project", "Foo.sol"], "import \"@vendor/sub/File.sol\";\ncontract F {}"),
   (["project", "B", "File.sol"], "contract File {}")]

def vendorRemapping : Remapping := [("@vendor", "A"), ("@vendor/sub", "B")]

/-- The compound range of the version-selection scenario, as parsed from
`pragma solidity >=0.4.19 <0.7.0;`. -/
def rangeSpec : SpecSet :=
  [⟨.ge, "0.4.19", [0, 4, 19], false⟩, ⟨.lt, "0.7.0", [0, 7, 0], false⟩]

def rangeInstalled : List PVersion :=
  [⟨[0, 5, 16], none⟩, ⟨[0, 6, 12], none⟩, ⟨[0, 8, 12], none⟩]

/-- Duplicate-import scenario: the same raw import line appears twice in
one file. -/
def dupFs : Filesystem :=
  [(pathA, "import \"./B.sol\";\ncontract A {}\nimport \"./B.sol\";")]

/-! ## Claim theorems -/

set_option maxRecDepth 200000

/-- Every entry of a finalized version map has a non-empty file set: the
final comprehension filters on `if result[k]`. -/
theorem mem_finalizeVersionMap_ne_nil {env2 : SolcEnv}
    {cleaned : List (PVersion × List AbsPath)} {e : PVersion × List AbsPath}
    (h : e ∈ finalizeVersionMap env2 cleaned) : e.2 ≠ [] := by
  unfold finalizeVersionMap at h
  obtain ⟨k, -, hf⟩ := List.mem_filterMap.mp h
  split at hf
  · simp at hf
  · next ls hdg =>
    split at hf
    · simp at hf
    · next hemp =>
      obtain rfl : (k, ls) = e := by simpa using hf
      simpa [List.isEmpty_iff] using hemp

/-- C1: in the version-map computation, a transitively imported file whose
pragma constraint is an exact pin forces its own resolved version onto
the importer. (i) In the import loop of `get_version_map_from_imports`,
an import with a pinned constraint overrides the candidate version outright
and short-circuits the loop at the first pinned import, whatever
the remaining imports and the current candidate are. (ii) End to end: with
`A.sol` (`^0.8.0`) importing pinned `B.sol` (`=0.8.12`) while the higher
satisfying `0.8.20` is installed, `get_version_map_from_imports([A])`
places both files under `0.8.12` (plus commit hash) and under no other
version. -/
theorem exact_pin_propagation :
    (∀ (pm : List (AbsPath × Option SpecSet)) (env : SolcEnv)
        (rest : List AbsPath) (cur : PVersion) (q : AbsPath) (s : SpecSet)
        (v : PVersion) (env2 : SolcEnv),
        dictGet pm q = some (some s) →
        specSetIsPinned s = some true →
        getBestVersion env (some s) = some (v, env2) →
        adjustVersionFromImports pm (q :: rest) env cur = some (v, env2)) ∧
      getVersionMapFromImports (demoProject pinFs) pinEnv [pathA] pinImportMap =
        some [(pinnedVersion, [pathA, pathB])] := by
  constructor
  · intro pm env rest cur q s v env2 hget hpin hbest
    have hk : dictHasKey pm q = true := dictGet_hasKey hget
    simp [adjustVersionFromImports, hk, hget, hbest, hpin]
  · decide

/-- Witness for `exact_pin_propagation`: the pinned `B.sol` import drags the
candidate `0.8.20` down to the pinned `0.8.12` immediately. -/
theorem exact_pin_propagation_witness :
    adjustVersionFromImports pinPragmaMap [pathB] pinEnv
        ⟨[0, 8, 20], some "commit"⟩ = some (pinnedVersion, pinEnv) :=
  exact_pin_propagation.1 pinPragmaMap pinEnv [] ⟨[0, 8, 20], some "commit"⟩
    pathB [⟨.eq, "0.8.12", [0, 8, 12], false⟩] pinnedVersion pinEnv
    (by decide) (by decide) rfl

/-- C2 (counterexample): the returned version map does not partition the
file set. In the shared-import scenario (`A.sol` at `0.6.12` and `C.sol`
at `0.7.6` both import the constraint-free `S.sol`), the map keeps `S.sol`
in the file sets of two different versions, not exactly one. -/
theorem version_map_partition_counterexample :
    getVersionMapFromImports (demoProject sharedFs) sharedEnv [pathA, pathC]
        sharedImportMap = some sharedResult ∧
      (sharedResult.filter fun e => pathS ∈ e.2).length = 2 ∧
      ¬ (sharedResult.filter fun e => pathS ∈ e.2).length = 1 := by
  refine ⟨by decide, by decide, by decide⟩

/-- C2 (amended): every version key of the returned map has a non-empty
file set — but the map need not partition the files: a shared import
needed by importers grouped under different versions is kept in each such
group, so a file can appear in more than one group, as `S.sol` does in the
shared-import scenario (where every requested file still lands in a
group). -/
theorem version_map_partition_amended :
    (∀ (P : Project) (env : SolcEnv) (paths : List AbsPath)
        (im : List (String × List String)) (m : List (PVersion × List AbsPath)),
        env.configured = none →
        getVersionMapFromImports P env paths im = some m →
        ∀ e ∈ m, e.2 ≠ []) ∧
      (getVersionMapFromImports (demoProject sharedFs) sharedEnv [pathA, pathC]
          sharedImportMap = some sharedResult ∧
        (⟨[0, 6, 12], some "commit"⟩, [pathA, pathS]) ∈ sharedResult ∧
        (⟨[0, 7, 6], some "commit"⟩, [pathC, pathS]) ∈ sharedResult) := by
  constructor
  · intro P env paths im m hconf heq e hmem
    have hbridge : getVersionMapFromImports P env paths im =
        versionMapCore P env (versionMapPathSet P paths im) im := by
      unfold getVersionMapFromImports
      rw [hconf]
    rw [hbridge] at heq
    unfold versionMapCore at heq
    split at heq
    · simp at heq
    · next pr hloop =>
      obtain rfl : finalizeVersionMap pr.2 (consolidateVersionMap pr.1) = m := by
        simpa using heq
      exact mem_finalizeVersionMap_ne_nil hmem
  · refine ⟨by decide, by decide, by decide⟩

/-- Witness for `version_map_partition_amended`: in the shared-import
scenario both returned groups are non-empty. -/
theorem version_map_partition_witness : ([pathA, pathS] : List AbsPath) ≠ [] :=
  version_map_partition_amended.1 (demoProject sharedFs) sharedEnv
    [pathA, pathC] sharedImportMap sharedResult rfl (by decide)
    (⟨[0, 6, 12], some "commit"⟩, [pathA, pathS]) (by decide)

/-- C3: the longest matching remapping key wins. (i) In general,
`max(valid_matches, key=len)` in `_import_str_to_source_id` returns a
match whose key length is maximal among all matches. (ii) With both
`@vendor → A` and `@vendor/sub → B` in the table, resolving
`import "@vendor/sub/File.sol";` substitutes the longer key and yields
`B/File.sol` — rooted at `B`, never at `A`. -/
theorem longest_remap_key_wins :
    (∀ (ms : List (String × String)) (res : String × String),
        maxByKeyLen ms = some res →
        res ∈ ms ∧ ∀ x ∈ ms, x.1.length ≤ res.1.length) ∧
      (importStrToSourceId (demoProject remapFs)
          "import \"@vendor/sub/File.sol\";" ["project", "Foo.sol"]
          vendorRemapping = some ("B/File.sol", vendorRemapping) ∧
        strStartsWith "B/File.sol" "B/" = true ∧
        strStartsWith "B/File.sol" "A" = false) :=
  ⟨fun _ _ h => maxByKeyLen_spec h, by decide, by decide, by decide⟩

/-- Witness for `longest_remap_key_wins`: applied to the two-entry vendor
table, the chosen key `@vendor/sub` is at least as long as `@vendor`. -/
theorem longest_remap_key_wins_witness :
    (("@vendor", "A") : String × String).1.length ≤
      (("@vendor/sub", "B") : String × String).1.length :=
  (longest_remap_key_wins.1 vendorRemapping ("@vendor/sub", "B")
      (by decide)).2 ("@vendor", "A") (by decide)

/-- C4: the recursive import-graph construction terminates on a direct
cycle of imports (`X.sol` imports `Y.sol`, `Y.sol` imports `X.sol`) — the run
completes within the tracked-set recursion bound rather than diverging —
and both files' source IDs appear as keys of the returned map, each with a
finite import list; this holds starting from either file. -/
theorem import_cycle_terminates :
    getImportsFromRemapping (demoProject cycleFs) [pathX] [] =
        some cycleResult ∧
      dictHasKey cycleResult "X.sol" = true ∧
      dictHasKey cycleResult "Y.sol" = true ∧
      getImportsFromRemapping (demoProject cycleFs) [pathY] [] =
        some [("X.sol", ["Y.sol"]), ("Y.sol", ["X.sol", "Y.sol"])] := by
  refine ⟨by decide, by decide, by decide, by decide⟩

/-- C5 (counterexample): an import whose path resolution fails is *not*
dropped from the recorded import set. `A.sol` imports the unresolvable
literal `@nope/X.sol`; the returned import map records that literal among
the values of `A.sol`'s entry. -/
theorem unresolved_import_counterexample :
    getImportsFromRemapping (demoProject unresolvedFs) [pathA] [] =
        some unresolvedResult ∧
      "@nope/X.sol" ∈ (dictGet unresolvedResult "A.sol").getD [] := by
  refine ⟨by decide, by decide⟩

/-- C5 (amended): an import whose path resolution fails is recorded in the
importing file's import set as its (remapping-expanded) literal string; it
never becomes a key of the returned map, and the traversal continues over
the remaining imports rather than aborting (the sibling `./B.sol` import
is resolved and `B.sol` is processed as a key). -/
theorem unresolved_import_recorded :
    getImportsFromRemapping (demoProject unresolvedFs) [pathA] [] =
        some unresolvedResult ∧
      "@nope/X.sol" ∈ (dictGet unresolvedResult "A.sol").getD [] ∧
      dictHasKey unresolvedResult "@nope/X.sol" = false ∧
      "B.sol" ∈ (dictGet unresolvedResult "A.sol").getD [] ∧
      dictHasKey unresolvedResult "B.sol" = true := by
  refine ⟨by decide, by decide, by decide, by decide, by decide⟩

/-- C6: `select_version` picks the maximum satisfying option. (i) In
general (for commit-hash-free option lists, as `installed_versions` and
`available_versions` are), a returned version is an option satisfying the
constraint set, and every satisfying option is at most it. (ii) For the
pragma `>=0.4.19 <0.7.0` with installed `{0.5.16, 0.6.12, 0.8.12}`, the
selected version is `0.6.12`. -/
theorem select_version_maximum :
    (∀ (ss : SpecSet) (opts : List PVersion) (v : PVersion),
        (∀ w ∈ opts, w.commit = none) →
        selectVersion ss opts = some v →
        v ∈ opts ∧ specSetContains ss v = true ∧
          ∀ w ∈ opts, specSetContains ss w = true → pvLe w v = true) ∧
      (getPragmaSpecFromStr "pragma solidity >=0.4.19 <0.7.0;" =
          some rangeSpec ∧
        selectVersion rangeSpec rangeInstalled = some ⟨[0, 6, 12], none⟩) :=
  ⟨fun _ _ _ hc h => selectVersion_spec hc h, by decide, by decide⟩

/-- Witness for `select_version_maximum`: in the range scenario the skipped
satisfying option `0.5.16` is at most the selected `0.6.12`. -/
theorem select_version_maximum_witness :
    pvLe ⟨[0, 5, 16], none⟩ ⟨[0, 6, 12], none⟩ = true :=
  (select_version_maximum.1 rangeSpec rangeInstalled ⟨[0, 6, 12], none⟩
      (by decide) (by decide)).2.2 ⟨[0, 5, 16], none⟩ (by decide) (by decide)

/-- The import-line list produced from one file never contains duplicates:
additions go through the `import_set`. -/
theorem importLinesOfFile_nodup :
    ∀ (lines acc : List String), acc.Nodup →
      ∀ r, importLinesOfFile lines acc = some r → r.Nodup := by
  intro lines
  induction lines with
  | nil =>
    intro acc hacc r h
    obtain rfl : acc = r := by simpa [importLinesOfFile] using h
    exact hacc
  | cons l rest ih =>
    intro acc hacc r h
    unfold importLinesOfFile at h
    split at h
    · split at h
      · simp at h
      · exact ih _ (setAdd_nodup _ hacc) r h
    · exact ih _ hacc r h

/-- C7: identical raw import texts within one file are deduplicated. (i)
In general, the extracted import list of a file has no duplicate entries.
(ii) A file containing the same raw import line twice yields exactly one
entry for it. -/
theorem import_dedup_within_file :
    (∀ (lines acc : List String), acc.Nodup →
        ∀ r, importLinesOfFile lines acc = some r → r.Nodup) ∧
      (getImportLines dupFs [pathA] =
          some [(pathA, ["import \"./B.sol\";"])] ∧
        (["import \"./B.sol\";"] : List String).count "import \"./B.sol\";" = 1) :=
  ⟨importLinesOfFile_nodup, by decide, by decide⟩

/-- Witness for `import_dedup_within_file`: the duplicate-import file's
extracted list is duplicate-free. -/
theorem import_dedup_within_file_witness :
    (["import \"./B.sol\";"] : List String).Nodup :=
  import_dedup_within_file.1
    ["import \"./B.sol\";", "contract A {}", "import \"./B.sol\";"] []
    List.nodup_nil ["import \"./B.sol\";"] (by decide)

/-- Keys survive the extension-dict fold. -/
theorem pathExtensionsDict_mono :
    ∀ (paths : List AbsPath) (d : List (String × AbsPath)) (k : String),
      dictHasKey d k = true →
      dictHasKey
        (paths.foldl (fun d q => dictInsert d (getFullExtension q) q) d) k =
        true := by
  intro paths
  induction paths with
  | nil => intro d k h; exact h
  | cons q rest ih =>
    intro d k h
    exact ih _ k ((dictInsert_hasKey d (getFullExtension q) q k).mpr (Or.inl h))

/-- Every input path's extension is a key of the extension dict. -/
theorem pathExtensionsDict_hasKey :
    ∀ (paths : List AbsPath) (d : List (String × AbsPath)) (p : AbsPath),
      p ∈ paths →
      dictHasKey
        (paths.foldl (fun d q => dictInsert d (getFullExtension q) q) d)
        (getFullExtension p) = true := by
  intro paths
  induction paths with
  | nil => intro d p h; simp at h
  | cons q rest ih =>
    intro d p hp
    rcases List.mem_cons.mp hp with rfl | hp
    · exact pathExtensionsDict_mono rest _ _
        ((dictInsert_hasKey d (getFullExtension p) p (getFullExtension p)).mpr
          (Or.inr rfl))
    · exact ih _ p hp

/-- C8 (counterexample): the error of `_validate_can_compile` does not list
all offending filenames. With the two offending inputs `a.txt` and `b.js`,
the raised message names only `a.txt` and does not mention `b.js`. -/
theorem nonsource_validation_counterexample :
    validateCanCompile [["p", "a.txt"], ["p", "b.js"]] =
        .error "Unable to compile 'a.txt' using Solidity compiler." ∧
      strContains "Unable to compile 'a.txt' using Solidity compiler."
          "b.js" = false ∧
      getFullExtension ["p", "b.js"] ≠ solExtension := by
  refine ⟨by rfl, by decide, by decide⟩

/-- C8 (amended): when some input file's extension is not `.sol`,
validation fails with a fatal error. The validator used by the compile
pipeline (`_validate_can_compile`) names one offending file per raised
message, while the helper `verify_contract_filepaths` raises one message
listing the names of all offending files. -/
theorem nonsource_validation_amended :
    (∀ (paths : List AbsPath) (p : AbsPath), p ∈ paths →
        getFullExtension p ≠ solExtension →
        validateCanCompile paths ≠ .ok ()) ∧
      (∀ (paths : List AbsPath) (p : AbsPath), p ∈ paths →
        pathSuffix p ≠ solExtension →
        pathName p ∈ invalidSourceNames paths ∧
          verifyContractFilepaths paths =
            .error ("Unable to compile '" ++
              String.intercalate "', '" (invalidSourceNames paths) ++
              "' using Solidity compiler.")) ∧
      verifyContractFilepaths [["p", "a.txt"], ["p", "b.js"], ["p", "c.sol"]] =
        .error "Unable to compile 'a.txt', 'b.js' using Solidity compiler." := by
  refine ⟨?_, ?_, by rfl⟩
  · intro paths p hp hbad hok
    unfold validateCanCompile at hok
    split at hok
    · simp at hok
    · next hfind =>
      have hk := pathExtensionsDict_hasKey paths [] p hp
      obtain ⟨e, he, hep⟩ := List.any_eq_true.mp hk
      have : (pathExtensionsDict paths).find?
          (fun e => !(e.1 = solExtension)) ≠ none := by
        have hsome : ((pathExtensionsDict paths).find?
            fun e => !(e.1 = solExtension)).isSome := by
          refine List.find?_isSome.mpr ⟨e, he, ?_⟩
          simp only [decide_eq_true_eq] at hep
          simp [hep, hbad]
        intro hnone
        rw [hnone] at hsome
        simp at hsome
      exact this hfind
  · intro paths p hp hbad
    have hmem : pathName p ∈ invalidSourceNames paths := by
      unfold invalidSourceNames
      exact List.mem_map_of_mem pathName
        (List.mem_filter.mpr ⟨hp, by simp [hbad]⟩)
    refine ⟨hmem, ?_⟩
    unfold verifyContractFilepaths
    rw [if_neg]
    simp only [List.isEmpty_iff]
    exact List.ne_nil_of_mem hmem

/-- Witness for `nonsource_validation_amended`: the pipeline validator
rejects the `a.txt`/`b.js` input. -/
theorem nonsource_validation_witness :
    validateCanCompile [["p", "a.txt"], ["p", "b.js"]] ≠ .ok () :=
  nonsource_validation_amended.1 [["p", "a.txt"], ["p", "b.js"]]
    ["p", "a.txt"] (by decide) (by decide)

/-- C9: pragma extraction never raises. `get_pragma_spec_from_str` returns
`None` when no pragma-solidity declaration matches, and also when the
first match's expression fails to parse as a constraint set (the
`ValueError` is caught) — so a malformed pragma such as `>>0.8.0` is
treated exactly like an absent one. -/
theorem malformed_pragma_returns_none :
    (∀ s : String, findPragma s = none → getPragmaSpecFromStr s = none) ∧
      (∀ (s g : String), findPragma s = some g →
        parseSpecifierSet
          (String.intercalate "," (fixPragmaParts (pySplitWs g) "")) = none →
        getPragmaSpecFromStr s = none) ∧
      findPragma "pragma solidity >>0.8.0;" = some ">>0.8.0" ∧
      getPragmaSpecFromStr "pragma solidity >>0.8.0;" = none ∧
      getPragmaSpecFromStr "no pragma at all" = none := by
  refine ⟨?_, ?_, by decide, by decide, by decide⟩
  · intro s h
    unfold getPragmaSpecFromStr
    rw [h]
  · intro s g hf hp
    unfold getPragmaSpecFromStr
    rw [hf]
    exact hp

/-- Witness for `malformed_pragma_returns_none`: the malformed pragma
`>>0.8.0` yields `None`. -/
theorem malformed_pragma_returns_none_witness :
    getPragmaSpecFromStr "pragma solidity >>0.8.0;" = none :=
  malformed_pragma_returns_none.2.1 "pragma solidity >>0.8.0;" ">>0.8.0"
    (by decide) (by decide)

/-- Keys of a `get_import_lines` result come only from paths that exist as
files (or were already in the accumulator). -/
theorem getImportLines_keys_aux :
    ∀ (fs : Filesystem) (paths : List AbsPath)
      (acc res : List (AbsPath × List String)),
      paths.foldlM (importLinesStep fs) acc = some res →
      ∀ q, dictHasKey res q = true →
        dictHasKey acc q = true ∨ isFile fs q = true := by
  intro fs paths
  induction paths with
  | nil =>
    intro acc res h q hq
    obtain rfl : acc = res := by simpa using h
    exact Or.inl hq
  | cons p rest ih =>
    intro acc res h q hq
    rw [List.foldlM_cons] at h
    unfold importLinesStep at h
    split at h
    · next hfile =>
      split at h
      · exact ih acc res h q hq
      · split at h
        · simp at h
        · rcases ih _ res h q hq with hacc | hfq
          · rcases (dictInsert_hasKey acc p _ q).mp hacc with hacc2 | rfl
            · exact Or.inl hacc2
            · exact Or.inr hfile
          · exact Or.inr hfq
    · exact ih acc res h q hq

/-- C10: `get_import_lines` silently omits paths that do not exist as
files. (i) A non-file path at the head of the input contributes nothing:
the result equals the result for the remaining paths (no entry, no
error). (ii) Every key of any returned mapping is a path that exists as a
file. (iii) Concretely, a missing path alongside `A.sol` produces only
the `A.sol` entry. -/
theorem missing_file_omitted :
    (∀ (fs : Filesystem) (p : AbsPath) (rest : List AbsPath),
        isFile fs p = false →
        getImportLines fs (p :: rest) = getImportLines fs rest) ∧
      (∀ (fs : Filesystem) (paths : List AbsPath)
          (res : List (AbsPath × List String)) (q : AbsPath),
        getImportLines fs paths = some res →
        dictHasKey res q = true → isFile fs q = true) ∧
      getImportLines pinFs [["project", "Missing.sol"], pathA] =
        some [(pathA, [])] := by
  refine ⟨?_, ?_, by decide⟩
  · intro fs p rest hfile
    unfold getImportLines
    rw [List.foldlM_cons]
    unfold importLinesStep
    rw [hfile]
    simp
  · intro fs paths res q h hq
    rcases getImportLines_keys_aux fs paths [] res h q hq with hacc | hfq
    · simp [dictHasKey] at hacc
    · exact hfq

/-- Witness for `missing_file_omitted`: dropping the missing path from the
input changes nothing, and the key of the concrete result is a file. -/
theorem missing_file_omitted_witness :
    getImportLines pinFs [["project", "Missing.sol"], pathA] =
      getImportLines pinFs [pathA] :=
  missing_file_omitted.1 pinFs ["project", "Missing.sol"] [pathA] (by decide)

end ApeSolidity
